import Mathlib

/-!
Verification of the tidb-binlog ordering and delivery engine against its
natural-language specification.  Each Go component named by a claim is
shallowly embedded as an executable Lean definition; machine integers are
modelled as `Nat`/`Int`, channels as lists of delivered values, and the
nondeterminism of goroutine scheduling and Go map iteration as explicit
input parameters that an adversary may choose.
-/

namespace TidbBinlog

/-! ## K-way merger — src/drainer/merge.go

`MergeItem` is a Go interface with the single method `GetCommitTs`; we model
an item as a record holding the commit timestamp and an opaque payload tag.
The merger state holds the per-source head slots (`binlogs`, a Go map
modelled as an association list whose order stands for the adversarially
chosen map iteration order), the last emitted timestamp (`lastTS`) and the
sequence of items sent on the output channel so far. -/

structure MergeItemM where
  commitTs : Int
  payload : Nat
deriving Repr, DecidableEq

structure MergerState where
  binlogs : List (String × MergeItemM)
  lastTS : Int
  output : List MergeItemM
deriving Repr, DecidableEq

/-- One loop iteration's environment for `Merger.run`: the items read from the
source channels for sources that currently have no head (`fills`, in the
adversarially chosen iteration order of `m.sources`), and whether some
channel read found a closing source (the `skip` flag of merge.go:126-139). -/
structure MergerInput where
  fills : List (String × MergeItemM)
  skip : Bool
deriving Repr, DecidableEq

/-- The head-filling loop of `Merger.run` (merge.go:127-140): a source that
already holds a head keeps it, otherwise the freshly read item becomes its
head slot. -/
def fillHeads (binlogs fills : List (String × MergeItemM)) :
    List (String × MergeItemM) :=
  fills.foldl (fun acc f => if (acc.lookup f.1).isSome then acc else acc ++ [f]) binlogs

/-- The minimum-selection loop of `Merger.run` (merge.go:151-159): starting
from `minBinlog = nil`, every head strictly smaller than the current minimum
replaces it, so on ties the earlier head in iteration order is kept. -/
def selectMin : List (String × MergeItemM) → Option (String × MergeItemM)
  | [] => none
  | x :: xs => some (xs.foldl (fun m y => if y.2.commitTs < m.2.commitTs then y else m) x)

/-- One iteration of the loop body of `Merger.run` (merge.go:119-173).
When the chosen minimal head has `commitTs ≤ lastTS` the Go code logs an
error and `continue`s; note that it does not delete the head from
`m.binlogs` in that branch.  Emission deletes the chosen source's head
(`delete(m.binlogs, minID)`), modelled as removing the key from the
association list, and sets `lastTS`. -/
def mergerStep (st : MergerState) (inp : MergerInput) : MergerState :=
  if inp.skip then
    { st with binlogs := fillHeads st.binlogs inp.fills }
  else
    match selectMin (fillHeads st.binlogs inp.fills) with
    | none => { st with binlogs := fillHeads st.binlogs inp.fills }
    | some (minID, minB) =>
      if minB.commitTs ≤ st.lastTS then
        { st with binlogs := fillHeads st.binlogs inp.fills }
      else
        { binlogs := (fillHeads st.binlogs inp.fills).filter (fun p => p.1 ≠ minID)
          lastTS := minB.commitTs
          output := st.output ++ [minB] }

/-- Initial state of `Merger.run` (merge.go:115-118): no heads, no output,
`lastTS = math.MinInt64`. -/
def mergerInit : MergerState :=
  { binlogs := [], lastTS := -(2 ^ 63 : Int), output := [] }

/-- A whole execution of the `Merger.run` loop under an adversarially chosen
sequence of per-iteration channel deliveries. -/
def mergerRun (inps : List MergerInput) : MergerState :=
  inps.foldl mergerStep mergerInit

/-- Invariant carried by the merger loop: the emitted timestamps are strictly
increasing and all of them are bounded by `lastTS`. -/
def mergerInv (st : MergerState) : Prop :=
  List.Pairwise (· < ·) (st.output.map MergeItemM.commitTs) ∧
    ∀ x ∈ st.output, x.commitTs ≤ st.lastTS

theorem mergerStep_inv (st : MergerState) (inp : MergerInput)
    (h : mergerInv st) : mergerInv (mergerStep st inp) := by
  obtain ⟨hpw, hle⟩ := h
  unfold mergerStep
  split
  · exact ⟨hpw, hle⟩
  · split
    · exact ⟨hpw, hle⟩
    · rename_i minID minB
      split
      · exact ⟨hpw, hle⟩
      · rename_i hts
        push_neg at hts
        constructor
        · simp only [List.map_append, List.map_cons, List.map_nil]
          rw [List.pairwise_append]
          refine ⟨hpw, List.pairwise_singleton _ _, ?_⟩
          intro a ha b hb
          simp only [List.mem_singleton] at hb
          subst hb
          simp only [List.mem_map] at ha
          obtain ⟨y, hy, rfl⟩ := ha
          exact lt_of_le_of_lt (hle y hy) hts
        · intro x hx
          simp only [List.mem_append, List.mem_singleton] at hx
          rcases hx with hx | rfl
          · exact le_of_lt (lt_of_le_of_lt (hle x hx) hts)
          · exact le_refl _

theorem mergerRun_inv_aux (inps : List MergerInput) (st : MergerState)
    (h : mergerInv st) : mergerInv (inps.foldl mergerStep st) := by
  induction inps generalizing st with
  | nil => exact h
  | cons i is ih => exact ih _ (mergerStep_inv st i h)

/-- C1: For every execution of the merger's run loop, whatever the
interleaving and contents of its per-source input channels, the sequence of
items sent on the output channel has strictly increasing `commitTs`: each
emitted item's `commitTs` is strictly greater than the `commitTs` of every
item emitted before it. -/
theorem merger_output_strictly_monotone (inps : List MergerInput) :
    List.Pairwise (· < ·) ((mergerRun inps).output.map MergeItemM.commitTs) :=
  (mergerRun_inv_aux inps mergerInit ⟨List.Pairwise.nil, by simp [mergerInit]⟩).1

theorem selectMin_foldl_mem (xs : List (String × MergeItemM))
    (a : String × MergeItemM) :
    xs.foldl (fun m y => if y.2.commitTs < m.2.commitTs then y else m) a ∈ a :: xs := by
  induction xs generalizing a with
  | nil => simp
  | cons x xs ih =>
    simp only [List.foldl_cons]
    by_cases h : x.2.commitTs < a.2.commitTs
    · simp only [if_pos h]
      have := ih x
      simp only [List.mem_cons] at this ⊢
      tauto
    · simp only [if_neg h]
      have := ih a
      simp only [List.mem_cons] at this ⊢
      tauto

theorem selectMin_mem (l : List (String × MergeItemM)) (x : String × MergeItemM)
    (h : selectMin l = some x) : x ∈ l := by
  cases l with
  | nil => simp [selectMin] at h
  | cons a as =>
    simp only [selectMin, Option.some.injEq] at h
    subst h
    exact selectMin_foldl_mem as a

/-- Two concrete iterations refuting C4: source `a` first delivers an item
with `commitTs = 5`, which is emitted; it then delivers an item with
`commitTs = 3 ≤ 5`. -/
def c4Inputs : List MergerInput :=
  [{ fills := [("a", { commitTs := 5, payload := 0 })], skip := false },
   { fills := [("a", { commitTs := 3, payload := 1 })], skip := false }]

/-- C4 counterexample: after the second iteration the non-monotone head item
is not emitted, but its head slot is NOT cleared — the item with
`commitTs = 3` is still the head for source `a` — refuting the claim that
the merger drops the head item and clears its slot. -/
theorem merger_drop_keeps_slot_counterexample :
    (mergerRun c4Inputs).output = [{ commitTs := 5, payload := 0 }] ∧
      (mergerRun c4Inputs).binlogs = [("a", { commitTs := 3, payload := 1 })] := by
  constructor <;> rfl

/-- C4 amended: whenever the merger's chosen minimal head item has `commitTs`
less than or equal to the last emitted `commitTs`, the merger logs an error
and skips it — the item is not emitted and the output never regresses — but
the head slot is NOT cleared: the rejected item remains the head of its
source, and `lastTS` is unchanged. -/
theorem merger_nonmonotone_head_skipped (st : MergerState) (inp : MergerInput)
    (minID : String) (minB : MergeItemM)
    (hskip : inp.skip = false)
    (hmin : selectMin (fillHeads st.binlogs inp.fills) = some (minID, minB))
    (hle : minB.commitTs ≤ st.lastTS) :
    mergerStep st inp =
        { st with binlogs := fillHeads st.binlogs inp.fills } ∧
      (minID, minB) ∈ (mergerStep st inp).binlogs := by
  have hstep : mergerStep st inp = { st with binlogs := fillHeads st.binlogs inp.fills } := by
    unfold mergerStep
    rw [hskip]
    simp only [Bool.false_eq_true, if_false, hmin, if_pos hle]
  exact ⟨hstep, by rw [hstep]; exact selectMin_mem _ _ hmin⟩

/-- Witness for `merger_nonmonotone_head_skipped` at a concrete state. -/
theorem merger_nonmonotone_head_skipped_witness :
    mergerStep { binlogs := [], lastTS := 5, output := [{ commitTs := 5, payload := 0 }] }
        { fills := [("a", { commitTs := 3, payload := 1 })], skip := false } =
        { binlogs := [("a", { commitTs := 3, payload := 1 })], lastTS := 5,
          output := [{ commitTs := 5, payload := 0 }] } ∧
      ("a", ({ commitTs := 3, payload := 1 } : MergeItemM)) ∈
        (mergerStep { binlogs := [], lastTS := 5, output := [{ commitTs := 5, payload := 0 }] }
          { fills := [("a", { commitTs := 3, payload := 1 })], skip := false }).binlogs := by
  have h := merger_nonmonotone_head_skipped
    { binlogs := [], lastTS := 5, output := [{ commitTs := 5, payload := 0 }] }
    { fills := [("a", { commitTs := 3, payload := 1 })], skip := false }
    "a" { commitTs := 3, payload := 1 } rfl rfl (by decide)
  exact ⟨by rw [h.1]; rfl, h.2⟩

/-! ## Drainer-side puller — src/drainer/pump.go, `Pump.PullBinlog`

A received record is modelled by its commit timestamp and an opaque payload
tag.  The per-record handling (pump.go:155-169) builds a `binlogItem` and
sends it on the outbound channel `ret`; only after the send succeeds does
the code compare `binlog.CommitTs` with `last` — advancing `last` (and
`p.latestTS`) when strictly greater, otherwise logging
"receive unsort binlog".  We model the channel as the list of items sent so
far. -/

structure BinlogMsg where
  commitTs : Int
  payload : Nat
deriving Repr, DecidableEq

/-- The per-record body of the `PullBinlog` goroutine loop (pump.go:155-169),
in the case where the channel send succeeds: the item is appended to the
outbound channel first, then `last` is advanced only if the new `commitTs`
is strictly greater. -/
def pullBinlogStep (last : Int) (out : List BinlogMsg) (b : BinlogMsg) :
    Int × List BinlogMsg :=
  (if b.commitTs > last then b.commitTs else last, out ++ [b])

/-- Processing a sequence of received records, starting from last-seen
timestamp `last` with an empty outbound channel. -/
def pullBinlogRun (last : Int) (msgs : List BinlogMsg) : Int × List BinlogMsg :=
  msgs.foldl (fun s m => pullBinlogStep s.1 s.2 m) (last, [])

/-- C5 counterexample: a record with `commitTs = 5`, not strictly greater
than the last seen `commitTs = 10`, IS emitted on the puller's outbound
channel — the send happens before the monotonicity check — refuting the
claim that such a record is never emitted. -/
theorem puller_emits_nonmonotone_record_counterexample :
    pullBinlogRun 10 [{ commitTs := 5, payload := 0 }] =
      (10, [{ commitTs := 5, payload := 0 }]) := by
  rfl

/-- C5 amended: the puller emits every received record on its outbound
channel regardless of its `commitTs`; when the new `commitTs` is not
strictly greater than the last seen from this source it logs an error and
merely refrains from advancing the last-seen timestamp, so `last` evolves as
`max last commitTs`. -/
theorem puller_always_emits (last : Int) (out : List BinlogMsg) (b : BinlogMsg) :
    pullBinlogStep last out b = (max last b.commitTs, out ++ [b]) := by
  unfold pullBinlogStep
  congr 1
  rcases le_or_lt b.commitTs last with h | h
  · rw [if_neg (not_lt.mpr h), max_eq_left h]
  · rw [if_pos h, max_eq_right (le_of_lt h)]

/-! ## Supervisor success-drain loop — src/drainer/translator/kafka.go, `Server.Run`

The checkpointing goroutine (kafka.go:492-516) selects between draining one
txn from the loader's `Successes` channel — executing
`s.finishTS = msg.Binlog.CommitTs`, a direct assignment — and a save-ticker
tick — executing `s.checkpoint.Save(s.finishTS, StatusRunning)`.  We model
an execution as the sequence of these two events and record the `commitTs`
values passed to `Save`. -/

inductive LoaderEvent where
  | success (commitTs : Int)
  | tick
deriving Repr, DecidableEq

structure ArbiterState where
  finishTS : Int
  saved : List Int
deriving Repr, DecidableEq

/-- One `select` round of the checkpointing goroutine of `Server.Run`
(kafka.go:493-515).  On a success the code assigns
`s.finishTS = msg.Binlog.CommitTs` (kafka.go:501); on a tick it calls
`Save(s.finishTS, StatusRunning)` (kafka.go:508), recorded here by
appending the saved value. -/
def serverRunStep (st : ArbiterState) (ev : LoaderEvent) : ArbiterState :=
  match ev with
  | .success ts => { st with finishTS := ts }
  | .tick => { st with saved := st.saved ++ [st.finishTS] }

/-- An execution of the checkpointing goroutine from the initial `finishTS`
(the checkpoint/initial commit ts loaded at startup). -/
def serverRun (initTS : Int) (evs : List LoaderEvent) : ArbiterState :=
  evs.foldl serverRunStep { finishTS := initTS, saved := [] }

/-- The commit timestamps of the drained successes, in arrival order. -/
def successTs (evs : List LoaderEvent) : List Int :=
  evs.filterMap (fun ev => match ev with
    | .success ts => some ts
    | .tick => none)

/-- C2 counterexample: successes arriving out of commit order make
`finishTS` regress — it is assigned, not advanced to a maximum — and the
values passed to successive `Save` calls decrease: after draining 10 then 5,
the two ticker saves record 10 and then 5. -/
theorem finishTS_not_max_counterexample :
    (serverRun 0 [.success 10, .tick, .success 5, .tick]).saved = [10, 5] ∧
      (serverRun 0 [.success 10, .success 5]).finishTS = 5 ∧
      ((5 : Int) ≠ max 10 5) := by
  refine ⟨rfl, rfl, by decide⟩

theorem serverRun_saved_aux (evs : List LoaderEvent) (st : ArbiterState)
    (hchain : List.Chain' (· ≤ ·) (st.finishTS :: successTs evs))
    (hsaved : List.Chain' (· ≤ ·) st.saved)
    (hbound : ∀ x ∈ st.saved, x ≤ st.finishTS) :
    List.Chain' (· ≤ ·) (evs.foldl serverRunStep st).saved := by
  induction evs generalizing st with
  | nil => exact hsaved
  | cons ev evs ih =>
    cases ev with
    | success ts =>
      simp only [successTs, List.filterMap_cons] at hchain
      have hts : st.finishTS ≤ ts := (List.chain'_cons.mp hchain).1
      refine ih { st with finishTS := ts } ?_ hsaved ?_
      · exact (List.chain'_cons.mp hchain).2
      · intro x hx
        exact le_trans (hbound x hx) hts
    | tick =>
      simp only [successTs, List.filterMap_cons] at hchain
      refine ih { st with saved := st.saved ++ [st.finishTS] } hchain ?_ ?_
      · rw [List.chain'_append]
        refine ⟨hsaved, List.chain'_singleton _, ?_⟩
        intro x hx y hy
        simp only [List.head?_cons, Option.mem_def, Option.some.injEq] at hy
        subst hy
        exact hbound x (List.mem_of_mem_getLast? hx)
      · intro x hx
        simp only [List.mem_append, List.mem_singleton] at hx
        rcases hx with hx | rfl
        · exact hbound x hx
        · exact le_refl _

/-- C2 amended: the supervisor sets `finishTS` directly to each drained
txn's `commitTs` (a plain assignment, not a maximum); provided the
successes arrive with nondecreasing `commitTs` starting no lower than
the initial `finishTS`, the `commitTs` values passed to successive
checkpoint `Save` calls never decrease. -/
theorem serverRun_saved_monotone (initTS : Int) (evs : List LoaderEvent)
    (hchain : List.Chain' (· ≤ ·) (initTS :: successTs evs)) :
    List.Chain' (· ≤ ·) ((serverRun initTS evs).saved) :=
  serverRun_saved_aux evs { finishTS := initTS, saved := [] } hchain
    List.chain'_nil (by simp)

/-- Witness for `serverRun_saved_monotone` on a concrete in-order run. -/
theorem serverRun_saved_monotone_witness :
    List.Chain' (· ≤ ·) ((serverRun 0 [.success 1, .tick, .success 3, .tick]).saved) :=
  serverRun_saved_monotone 0 [.success 1, .tick, .success 3, .tick] (by
    show List.Chain' (· ≤ ·) [(0 : Int), 1, 3]
    simp only [List.chain'_cons, List.chain'_singleton, and_true]
    omega)

/-! ## Binlog file framing — src/unnamed/part_008 and src/pump/server.go

Bytes are modelled as `Nat` values; reads take them modulo 256, mirroring
the byte type of the file contents. -/

/-- Little-endian value of a byte list (least significant byte first). -/
def leNat : List Nat → Nat
  | [] => 0
  | b :: bs => b % 256 + 256 * leNat bs

/-- `binary.LittleEndian.Uint32` over the first 4 bytes of the stream. -/
def le32 (bytes : List Nat) : Nat := leNat (bytes.take 4)

/-- `readInt64`: little-endian over the first 8 bytes of the stream. -/
def le64 (bytes : List Nat) : Nat := leNat (bytes.take 8)

/-- Little-endian 4-byte encoding of a 32-bit value. -/
def le32enc (n : Nat) : List Nat :=
  [n % 256, n / 256 % 256, n / 2 ^ 16 % 256, n / 2 ^ 24 % 256]

/-- Little-endian 8-byte encoding of a 64-bit value. -/
def le64enc (n : Nat) : List Nat :=
  [n % 256, n / 256 % 256, n / 2 ^ 16 % 256, n / 2 ^ 24 % 256,
   n / 2 ^ 32 % 256, n / 2 ^ 40 % 256, n / 2 ^ 48 % 256, n / 2 ^ 56 % 256]

/-- Reflected polynomial of the Castagnoli CRC-32 used by
`crc32.MakeTable(crc32.Castagnoli)` in src/pump/server.go:610. -/
def crc32cPoly : Nat := 0x82F63B78

/-- One bit step of the reflected CRC-32C computation. -/
def crc32cStep (crc : Nat) : Nat :=
  if crc % 2 = 1 then (crc / 2) ^^^ crc32cPoly else crc / 2

/-- One byte step: xor the byte into the low bits, then shift 8 times. -/
def crc32cByte (crc b : Nat) : Nat := crc32cStep^[8] (crc ^^^ (b % 256))

/-- `crc32.Checksum(payload, crcTable)` with the Castagnoli table: the
standard bitwise definition of CRC-32C, equal to Go's table-driven one. -/
def crc32c (data : List Nat) : Nat :=
  (data.foldl crc32cByte 0xFFFFFFFF) ^^^ 0xFFFFFFFF

/-- Modelled from the spec: the `magic` constant's defining file is not
under src/; §6 of the spec gives the framing `MAGIC(4, LE=0x5A5A5A5A)`. -/
def magicU32 : Nat := 0x5A5A5A5A

/-- Modelled from the spec: the binlog `encoder` (counterpart of the decoder
in src/unnamed/part_008) is not under src/; §3/§6 of the spec give the
on-disk framing of a record as
`magic(4, LE) | payloadLen(8, LE int64) | payload(n) | crc32c(4, LE,
Castagnoli over payload)`, 16 bytes of framing per record. -/
def encodeFrame (payload : List Nat) : List Nat :=
  le32enc magicU32 ++ le64enc payload.length ++ payload ++ le32enc (crc32c payload)

/-- A frame carrying an arbitrary stored CRC field (used to state what the
decoder does on a corrupted record). -/
def frameWithCrc (payload : List Nat) (crc : Nat) : List Nat :=
  le32enc magicU32 ++ le64enc payload.length ++ payload ++ le32enc crc

/-- The bytes of a file holding the given payloads as consecutive valid
frames. -/
def framesOf (ps : List (List Nat)) : List Nat :=
  (ps.map encodeFrame).flatten

inductive DecodeResult where
  | ok (payload : List Nat) (rest : List Nat)
  | eof
  | unexpectedEOF
  | crcMismatch
deriving Repr, DecidableEq

/-- `decoder.decode` of src/unnamed/part_008 (lines 26-77), flattened into a
guard chain over the remaining stream bytes:
* no bytes at all: `readInt32` yields `io.EOF`, which `decode` returns
  (clean end of file);
* 1-3 bytes: `binary.Read` yields `io.ErrUnexpectedEOF` (not `io.EOF`) and
  leaves `magicNum = 0`; the code only tests `err == io.EOF`, discards the
  error, and `checkMagic(0)` fails with `ErrCRCMismatch`;
* magic word mismatch: `checkMagic` returns `ErrCRCMismatch`;
* fewer than 8 bytes for the length field: `readInt64` maps `io.EOF` to
  `io.ErrUnexpectedEOF`, and a partial read already returns it;
* fewer than `size+4` payload+crc bytes: `io.ReadFull` likewise yields the
  unexpected-EOF error;
* stored CRC differing from `crc32.Checksum(payload, crcTable)`:
  `ErrCRCMismatch`;
* otherwise the payload is delivered and `size+16` bytes are consumed.
The decoder's `pos` bookkeeping (`d.pos.Offset += size + 16`) only stamps
the entity position and does not influence payloads or errors. -/
def decode (bytes : List Nat) : DecodeResult :=
  if bytes.length = 0 then .eof
  else if bytes.length < 4 then .crcMismatch
  else if le32 bytes ≠ magicU32 then .crcMismatch
  else if (bytes.drop 4).length < 8 then .unexpectedEOF
  else if (bytes.drop 12).length < le64 (bytes.drop 4) + 4 then .unexpectedEOF
  else if crc32c ((bytes.drop 12).take (le64 (bytes.drop 4))) ≠
      le32 (bytes.drop (12 + le64 (bytes.drop 4))) then .crcMismatch
  else .ok ((bytes.drop 12).take (le64 (bytes.drop 4)))
    (bytes.drop (16 + le64 (bytes.drop 4)))

theorem decode_ok_length_lt (bytes p rest : List Nat)
    (h : decode bytes = .ok p rest) : rest.length < bytes.length := by
  unfold decode at h
  repeat' split at h
  all_goals cases h
  all_goals simp only [List.length_drop]
  all_goals omega

theorem le32_enc_append (a : Nat) (X : List Nat) :
    le32 (le32enc a ++ X) = a % 2 ^ 32 := by
  simp [le32, le32enc, leNat]
  omega

theorem le64_enc_append (b : Nat) (X : List Nat) :
    le64 (le64enc b ++ X) = b % 2 ^ 64 := by
  simp [le64, le64enc, leNat]
  omega

theorem drop4_enc_append (a : Nat) (X : List Nat) :
    (le32enc a ++ X).drop 4 = X := by
  simp [le32enc]

theorem drop12_encs (a b : Nat) (X : List Nat) :
    (le32enc a ++ (le64enc b ++ X)).drop 12 = X := by
  simp [le32enc, le64enc]

theorem encodeFrame_length (q : List Nat) :
    (encodeFrame q).length = 16 + q.length := by
  simp [encodeFrame, le32enc, le64enc]
  omega

theorem crc32cStep_lt (c : Nat) (h : c < 2 ^ 32) : crc32cStep c < 2 ^ 32 := by
  unfold crc32cStep
  split
  · exact Nat.xor_lt_two_pow (by omega) (by norm_num [crc32cPoly])
  · omega

theorem crc32cByte_lt (c b : Nat) (h : c < 2 ^ 32) : crc32cByte c b < 2 ^ 32 := by
  unfold crc32cByte
  have hx : c ^^^ (b % 256) < 2 ^ 32 :=
    Nat.xor_lt_two_pow h (lt_trans (Nat.mod_lt _ (by norm_num)) (by norm_num))
  generalize c ^^^ (b % 256) = x at hx
  clear h
  induction (8 : Nat) generalizing x with
  | zero => simpa using hx
  | succ n ih =>
    rw [Function.iterate_succ_apply]
    exact ih _ (crc32cStep_lt _ hx)

theorem crc32c_lt (data : List Nat) : crc32c data < 2 ^ 32 := by
  unfold crc32c
  refine Nat.xor_lt_two_pow ?_ (by norm_num)
  have h : ∀ (l : List Nat) (c : Nat), c < 2 ^ 32 → l.foldl crc32cByte c < 2 ^ 32 := by
    intro l
    induction l with
    | nil => intro c hc; simpa using hc
    | cons x xs ih => intro c hc; exact ih _ (crc32cByte_lt c x hc)
  exact h data _ (by norm_num)

/-- What `decoder.decode` does on a well-formed frame header whose stored CRC
field is `c`: it succeeds exactly when `c` (as a 32-bit value) equals the
Castagnoli checksum of the payload, and reports `ErrCRCMismatch` otherwise. -/
theorem decode_frameWithCrc (q : List Nat) (c : Nat) (rest : List Nat)
    (hq : q.length < 2 ^ 64) :
    decode (frameWithCrc q c ++ rest) =
      if crc32c q = c % 2 ^ 32 then .ok q rest else .crcMismatch := by
  have hB : frameWithCrc q c ++ rest =
      le32enc magicU32 ++ (le64enc q.length ++ (q ++ (le32enc c ++ rest))) := by
    simp [frameWithCrc, List.append_assoc]
  rw [hB]
  unfold decode
  rw [drop4_enc_append, drop12_encs, le64_enc_append, Nat.mod_eq_of_lt hq]
  have hmagic : le32 (le32enc magicU32 ++ (le64enc q.length ++ (q ++ (le32enc c ++ rest)))) =
      magicU32 := by
    rw [le32_enc_append]
    norm_num [magicU32]
  rw [if_neg (by simp [le32enc, le64enc]), if_neg (by simp [le32enc, le64enc]),
    if_neg (by simp [hmagic]), if_neg (by simp [le64enc]),
    if_neg (by simp [le32enc])]
  have hdropn : (le32enc magicU32 ++
      (le64enc q.length ++ (q ++ (le32enc c ++ rest)))).drop (12 + q.length) =
      le32enc c ++ rest := by
    rw [← List.drop_drop, drop12_encs, List.drop_left]
  have hdropr : (le32enc magicU32 ++
      (le64enc q.length ++ (q ++ (le32enc c ++ rest)))).drop (16 + q.length) = rest := by
    have h16 : 16 + q.length = 12 + q.length + 4 := by omega
    rw [h16, ← List.drop_drop, hdropn]
    simp [le32enc]
  rw [hdropn, hdropr, List.take_left, le32_enc_append]
  by_cases hc : crc32c q = c % 2 ^ 32
  · rw [if_neg (by simp [hc]), if_pos hc]
  · rw [if_pos hc, if_neg hc]

/-- Decoding a well-formed frame delivers the payload and consumes exactly
its `size + 16` bytes. -/
theorem decode_encodeFrame (p rest : List Nat) (hp : p.length < 2 ^ 64) :
    decode (encodeFrame p ++ rest) = .ok p rest := by
  have h : encodeFrame p = frameWithCrc p (crc32c p) := rfl
  rw [h, decode_frameWithCrc p _ rest hp,
    if_pos (Nat.mod_eq_of_lt (crc32c_lt p)).symm]

/-- With 1-3 bytes left, the partial magic read's `io.ErrUnexpectedEOF` is
discarded and `checkMagic(0)` reports `ErrCRCMismatch`. -/
theorem decode_short (bytes : List Nat) (h1 : bytes.length ≠ 0)
    (h4 : bytes.length < 4) : decode bytes = .crcMismatch := by
  unfold decode
  rw [if_neg h1, if_pos h4]

/-- A stream not starting with the magic word is reported as
`ErrCRCMismatch` by `checkMagic`. -/
theorem decode_badMagic (bytes : List Nat) (h4 : 4 ≤ bytes.length)
    (hm : le32 bytes ≠ magicU32) : decode bytes = .crcMismatch := by
  unfold decode
  rw [if_neg (by omega), if_neg (by omega), if_pos hm]

/-- A frame truncated after its complete magic word yields the
unexpected-EOF error. -/
theorem decode_take_encodeFrame (q : List Nat) (k : Nat) (hq : q.length < 2 ^ 64)
    (h4 : 4 ≤ k) (hk : k < 16 + q.length) :
    decode ((encodeFrame q).take k) = .unexpectedEOF := by
  have hE : encodeFrame q =
      le32enc magicU32 ++ (le64enc q.length ++ (q ++ le32enc (crc32c q))) := by
    simp [encodeFrame, List.append_assoc]
  have hlen : ((encodeFrame q).take k).length = k := by
    rw [List.length_take, encodeFrame_length]
    omega
  have hmagic : le32 ((encodeFrame q).take k) = magicU32 := by
    unfold le32
    rw [List.take_take, min_eq_left (by omega), hE]
    simp [le32enc, leNat, magicU32]
  unfold decode
  simp only [List.length_drop, hlen]
  rw [if_neg (by omega), if_neg (by omega), if_neg (by simp [hmagic])]
  by_cases h12 : k < 12
  · rw [if_pos (by omega)]
  · have hsz : le64 (((encodeFrame q).take k).drop 4) = q.length := by
      rw [List.drop_take]
      unfold le64
      rw [List.take_take, min_eq_left (by omega), hE, drop4_enc_append]
      have h8 := le64_enc_append q.length (q ++ le32enc (crc32c q))
      unfold le64 at h8
      rw [h8]
      exact Nat.mod_eq_of_lt hq
    rw [if_neg (by omega), hsz, if_pos (by omega)]

inductive WalkErr where
  | unexpectedEOF
  | crcMismatch
deriving Repr, DecidableEq

/-- The per-file inner loop of `binlogger.Walk` (src/pump/server.go:836-866):
decode records one after another, sending each decoded payload, until
`decode` fails.  A plain `io.EOF` means the file ended cleanly at a record
boundary (`Walk` then moves to the next segment); any other error is
returned after the records already sent. -/
def walkFile (bytes : List Nat) : List (List Nat) × Option WalkErr :=
  match hdec : decode bytes with
  | .ok payload rest =>
    have : rest.length < bytes.length := decode_ok_length_lt bytes payload rest hdec
    ((payload :: (walkFile rest).1 : List (List Nat)), (walkFile rest).2)
  | .eof => ([], none)
  | .unexpectedEOF => ([], some .unexpectedEOF)
  | .crcMismatch => ([], some .crcMismatch)
termination_by bytes.length

/-- The segment loop of `binlogger.Walk` (src/pump/server.go:804-871): walk
each file of the directory in name order; on a clean end-of-file continue
with the next segment, otherwise stop and return the error. -/
def walkDir : List (List Nat) → List (List Nat) × Option WalkErr
  | [] => ([], none)
  | f :: fs =>
    match walkFile f with
    | (ps, none) => ((ps ++ (walkDir fs).1 : List (List Nat)), (walkDir fs).2)
    | (ps, some e) => (ps, some e)

theorem walkFile_of_decode_ok (bytes p rest : List Nat)
    (h : decode bytes = .ok p rest) :
    walkFile bytes = ((p :: (walkFile rest).1 : List (List Nat)), (walkFile rest).2) := by
  rw [walkFile]
  split
  all_goals rename_i heq
  all_goals rw [h] at heq
  · cases heq
    rfl
  all_goals cases heq

theorem walkFile_of_decode_eof (bytes : List Nat)
    (h : decode bytes = .eof) : walkFile bytes = ([], none) := by
  rw [walkFile]
  split
  all_goals rename_i heq
  all_goals rw [h] at heq
  all_goals cases heq

theorem walkFile_of_decode_ueof (bytes : List Nat)
    (h : decode bytes = .unexpectedEOF) :
    walkFile bytes = ([], some .unexpectedEOF) := by
  rw [walkFile]
  split
  all_goals rename_i heq
  all_goals rw [h] at heq
  all_goals cases heq

theorem walkFile_of_decode_crc (bytes : List Nat)
    (h : decode bytes = .crcMismatch) :
    walkFile bytes = ([], some .crcMismatch) := by
  rw [walkFile]
  split
  all_goals rename_i heq
  all_goals rw [h] at heq
  all_goals cases heq

/-- Appending valid frames in front of a stream prepends their payloads to
the walk result. -/
theorem walkFile_framesOf_append (ps : List (List Nat)) (tail : List Nat)
    (hps : ∀ p ∈ ps, p.length < 2 ^ 64) :
    walkFile (framesOf ps ++ tail) =
      ((ps ++ (walkFile tail).1 : List (List Nat)), (walkFile tail).2) := by
  induction ps with
  | nil => simp [framesOf]
  | cons p ps ih =>
    have hp : p.length < 2 ^ 64 := hps p (by simp)
    have hrec := ih (fun x hx => hps x (by simp [hx]))
    have hjoin : framesOf (p :: ps) ++ tail = encodeFrame p ++ (framesOf ps ++ tail) := by
      simp [framesOf, List.append_assoc]
    rw [hjoin, walkFile_of_decode_ok _ p (framesOf ps ++ tail) (decode_encodeFrame p _ hp),
      hrec]
    simp

theorem walkFile_nil : walkFile [] = ([], none) :=
  walkFile_of_decode_eof [] rfl

theorem walkDir_singleton (f : List Nat) : walkDir [f] = walkFile f := by
  unfold walkDir
  rcases h : walkFile f with ⟨ps, e⟩
  cases e with
  | none => simp [walkDir]
  | some e => simp

/-- Walking good segments first delivers all their payloads, then continues
in the last file. -/
theorem walkDir_framesOf_last (pss : List (List (List Nat))) (last : List Nat)
    (hpss : ∀ l ∈ pss, ∀ p ∈ l, p.length < 2 ^ 64) :
    walkDir (pss.map framesOf ++ [last]) =
      ((pss.flatten ++ (walkFile last).1 : List (List Nat)), (walkFile last).2) := by
  induction pss with
  | nil => simp [walkDir_singleton]
  | cons l ls ih =>
    have hl : ∀ p ∈ l, p.length < 2 ^ 64 := hpss l (by simp)
    have hrec := ih (fun x hx => hpss x (by simp [hx]))
    have hfl : walkFile (framesOf l) = (l, none) := by
      have h := walkFile_framesOf_append l [] hl
      rw [List.append_nil, walkFile_nil] at h
      simpa using h
    simp only [List.map_cons, List.cons_append]
    unfold walkDir
    rw [hfl]
    simp only [hrec, List.flatten_cons, List.append_assoc]

/-- C3 corrected: walking a binlog directory whose segments end in a damaged
last record distinguishes the failures as follows, always delivering every
earlier committed record intact first:
1. a record whose stored CRC field disagrees with the Castagnoli checksum of
   its payload stops the walk with the corruption error `ErrCRCMismatch`;
2. a record whose leading 4 bytes are not the magic word is likewise
   reported as `ErrCRCMismatch` by `checkMagic`;
3. a record truncated mid-frame with at least the 4 magic bytes present
   yields the distinguished unexpected-EOF error;
4. but a record truncated inside the magic word itself (1-3 trailing bytes)
   is reported as a corruption (`ErrCRCMismatch`), not unexpected-EOF: the
   partial-read error of the magic word is discarded by `decode`. -/
theorem walk_corruption_and_truncation (pss : List (List (List Nat)))
    (ps : List (List Nat)) (q : List Nat)
    (hpss : ∀ l ∈ pss, ∀ p ∈ l, p.length < 2 ^ 64)
    (hps : ∀ p ∈ ps, p.length < 2 ^ 64)
    (hq : q.length < 2 ^ 64) :
    (∀ c rest, c < 2 ^ 32 → c ≠ crc32c q →
      walkDir (pss.map framesOf ++ [framesOf ps ++ (frameWithCrc q c ++ rest)]) =
        ((pss.flatten ++ ps : List (List Nat)), some WalkErr.crcMismatch)) ∧
    (∀ junk, 4 ≤ junk.length → le32 junk ≠ magicU32 →
      walkDir (pss.map framesOf ++ [framesOf ps ++ junk]) =
        ((pss.flatten ++ ps : List (List Nat)), some WalkErr.crcMismatch)) ∧
    (∀ k, 4 ≤ k → k < 16 + q.length →
      walkDir (pss.map framesOf ++ [framesOf ps ++ (encodeFrame q).take k]) =
        ((pss.flatten ++ ps : List (List Nat)), some WalkErr.unexpectedEOF)) ∧
    (∀ k, 1 ≤ k → k < 4 →
      walkDir (pss.map framesOf ++ [framesOf ps ++ (encodeFrame q).take k]) =
        ((pss.flatten ++ ps : List (List Nat)), some WalkErr.crcMismatch)) := by
  have hbase : ∀ tail e, walkFile tail = ([], some e) →
      walkDir (pss.map framesOf ++ [framesOf ps ++ tail]) =
        ((pss.flatten ++ ps : List (List Nat)), some e) := by
    intro tail e htail
    rw [walkDir_framesOf_last pss _ hpss, walkFile_framesOf_append ps tail hps, htail]
    simp
  refine ⟨?_, ?_, ?_, ?_⟩
  · intro c rest hc hcc
    refine hbase _ _ (walkFile_of_decode_crc _ ?_)
    rw [decode_frameWithCrc q c rest hq,
      if_neg (by rw [Nat.mod_eq_of_lt hc]; exact fun h => hcc h.symm)]
  · intro junk hjl hjm
    exact hbase _ _ (walkFile_of_decode_crc _ (decode_badMagic junk hjl hjm))
  · intro k h4 hk
    exact hbase _ _ (walkFile_of_decode_ueof _ (decode_take_encodeFrame q k hq h4 hk))
  · intro k h1 h4
    refine hbase _ _ (walkFile_of_decode_crc _ (decode_short _ ?_ ?_))
    · rw [List.length_take, encodeFrame_length]
      omega
    · rw [List.length_take, encodeFrame_length]
      omega

/-- Witness for `walk_corruption_and_truncation`: a directory of one earlier
segment holding payload `[1]`, a last segment with a good record `[2]`
followed by the damaged record, exercising all four conclusions. -/
theorem walk_corruption_and_truncation_witness :
    walkDir [framesOf [[1]], framesOf [[2]] ++ (frameWithCrc [3] 0 ++ [])] =
        (([[1], [2]] : List (List Nat)), some WalkErr.crcMismatch) ∧
      walkDir [framesOf [[1]], framesOf [[2]] ++ [7, 7, 7, 7]] =
        (([[1], [2]] : List (List Nat)), some WalkErr.crcMismatch) ∧
      walkDir [framesOf [[1]], framesOf [[2]] ++ (encodeFrame [3]).take 5] =
        (([[1], [2]] : List (List Nat)), some WalkErr.unexpectedEOF) ∧
      walkDir [framesOf [[1]], framesOf [[2]] ++ (encodeFrame [3]).take 2] =
        (([[1], [2]] : List (List Nat)), some WalkErr.crcMismatch) := by
  have h := walk_corruption_and_truncation [[[1]]] [[2]] [3]
    (by intro l hl p hp; simp at hl; subst hl; simp at hp; subst hp; norm_num)
    (by intro p hp; simp at hp; subst hp; norm_num)
    (by norm_num)
  refine ⟨?_, ?_, ?_, ?_⟩
  · have h1 := h.1 0 [] (by norm_num) (by decide)
    simpa using h1
  · have h2 := h.2.1 [7, 7, 7, 7] (by norm_num) (by decide)
    simpa using h2
  · have h3 := h.2.2.1 5 (by norm_num) (by norm_num)
    simpa using h3
  · have h4 := h.2.2.2 2 (by norm_num) (by norm_num)
    simpa using h4

/-- C3 counterexample: the last segment holds one intact record with payload
`[7]` followed by a frame truncated inside its magic word (a single byte,
the first byte of the next record's magic).  The walk delivers the intact
record and then reports the corruption error `ErrCRCMismatch` — not the
distinguished unexpected-EOF error the claim requires for a file ending in
the middle of a frame. -/
theorem walk_truncation_counterexample :
    walkDir [encodeFrame [7] ++ (encodeFrame [8]).take 1] =
        (([[7]] : List (List Nat)), some WalkErr.crcMismatch) ∧
      WalkErr.crcMismatch ≠ WalkErr.unexpectedEOF := by
  constructor
  · have h : encodeFrame [7] ++ (encodeFrame [8]).take 1 =
        framesOf [[7]] ++ (encodeFrame [8]).take 1 := by
      simp [framesOf]
    rw [h, walkDir_singleton,
      walkFile_framesOf_append [[7]] _ (by intro p hp; simp at hp; subst hp; norm_num),
      walkFile_of_decode_crc _ (decode_short _ ?_ ?_)]
    · simp
    · rw [List.length_take, encodeFrame_length]
      norm_num
    · rw [List.length_take, encodeFrame_length]
      norm_num
  · decide

/-! ## Pump log writer — src/pump/server.go, `binlogger.WriteTail` / `rotate`

`binlogger` owns the tail segment file (locked) and an encoder appending to
it; the package-global `latestFilePos` (src/unnamed/part_010:36) records the
latest write position.  Disk I/O is modelled as always succeeding: the pure
model has no failing writes, so the `error` result is always `none`
(`nil`). -/

structure BinlogPos where
  suffix : Nat
  offset : Nat
deriving Repr, DecidableEq

structure BinloggerState where
  /-- suffix parsed from the tail file's name (`binlogger.seq`). -/
  curSeq : Nat
  /-- bytes of the tail segment file; the writer sits at its end, so
  `Seek(0, SEEK_CUR)` returns its length. -/
  curContent : List Nat
  /-- rotated-out segments, as (suffix, content at close). -/
  closedFiles : List (Nat × List Nat)
  /-- the package-global `latestFilePos`. -/
  latestFilePos : BinlogPos
  /-- the `SegmentSizeBytes` threshold (a configurable package variable). -/
  segmentSize : Nat
deriving Repr, DecidableEq

inductive WriteErr where
  | ioError
deriving Repr, DecidableEq

/-- `binlogger.rotate` (server.go:955-973): allocate `binlog-<seq+1>`
(`fileName` renders the suffix; its defining file is not under src/, and by
the spec file names are `binlog-%016d`, determined by the suffix), set the
shared `latestFilePos` to `(seq+1, 0)`, lock the new file as the tail and
close the previous one. -/
def rotate (b : BinloggerState) : BinloggerState :=
  { curSeq := b.curSeq + 1
    curContent := []
    closedFiles := b.closedFiles ++ [(b.curSeq, b.curContent)]
    latestFilePos := { suffix := b.curSeq + 1, offset := 0 }
    segmentSize := b.segmentSize }

/-- `binlogger.WriteTail` (server.go:915-938): an empty payload returns `nil`
at once; otherwise `encoder.encode` appends the framed record (the encoder
is not under src/; the frame layout `encodeFrame` is modelled from the
spec), `latestFilePos.Offset` is set to the post-append file offset, and if
that offset reached `SegmentSizeBytes` the file is rotated. -/
def WriteTail (b : BinloggerState) (payload : List Nat) :
    BinloggerState × Option WriteErr :=
  if payload.length = 0 then (b, none)
  else if (b.curContent ++ encodeFrame payload).length < b.segmentSize then
    ({ b with
        curContent := b.curContent ++ encodeFrame payload
        latestFilePos :=
          ⟨b.latestFilePos.suffix, (b.curContent ++ encodeFrame payload).length⟩ }, none)
  else
    (rotate { b with
        curContent := b.curContent ++ encodeFrame payload
        latestFilePos :=
          ⟨b.latestFilePos.suffix, (b.curContent ++ encodeFrame payload).length⟩ }, none)

/-- C9: `WriteTail` called with an empty payload returns `nil` immediately
and leaves all state unchanged: no record is framed or appended, the tail
file, the recorded position and the segment set are untouched, and no
rotation occurs. -/
theorem writeTail_empty_payload_noop (b : BinloggerState) :
    WriteTail b [] = (b, none) := rfl

/-- C6: every successful `WriteTail` of a non-empty payload appends exactly
one record of `len(payload) + 16` bytes laid out as magic(4) | length(8) |
payload | crc32c(4), records the post-write position (suffix unchanged,
offset = post-append file size), and rotates — new tail `binlog-<seq+1>`
locked and empty, old file closed — exactly when the post-append file size
is at least the segment-size threshold. -/
theorem writeTail_appends_and_rotates (b : BinloggerState) (p : List Nat)
    (hp : p.length ≠ 0) :
    (encodeFrame p).length = p.length + 16 ∧
      encodeFrame p =
        le32enc magicU32 ++ le64enc p.length ++ p ++ le32enc (crc32c p) ∧
      (b.curContent.length + (p.length + 16) < b.segmentSize →
        WriteTail b p =
          ({ curSeq := b.curSeq,
             curContent := b.curContent ++ encodeFrame p,
             closedFiles := b.closedFiles,
             latestFilePos := ⟨b.latestFilePos.suffix, b.curContent.length + (p.length + 16)⟩,
             segmentSize := b.segmentSize }, none)) ∧
      (b.segmentSize ≤ b.curContent.length + (p.length + 16) →
        WriteTail b p =
          ({ curSeq := b.curSeq + 1,
             curContent := [],
             closedFiles := b.closedFiles ++ [(b.curSeq, b.curContent ++ encodeFrame p)],
             latestFilePos := ⟨b.curSeq + 1, 0⟩,
             segmentSize := b.segmentSize }, none)) := by
  have hfl : (b.curContent ++ encodeFrame p).length =
      b.curContent.length + (p.length + 16) := by
    rw [List.length_append, encodeFrame_length]
    omega
  refine ⟨by rw [encodeFrame_length]; omega, rfl, ?_, ?_⟩
  · intro hlt
    unfold WriteTail
    rw [if_neg hp, if_pos (by rw [hfl]; exact hlt), hfl]
  · intro hge
    unfold WriteTail
    rw [if_neg hp, if_neg (by rw [hfl]; omega)]
    unfold rotate
    rfl

/-- Witness for `writeTail_appends_and_rotates`: a 1-byte payload against a
segment threshold of 1000 (no rotation) and of 10 (rotation). -/
theorem writeTail_appends_and_rotates_witness :
    WriteTail ⟨0, [], [], ⟨0, 0⟩, 1000⟩ [7] =
      (⟨0, encodeFrame [7], [], ⟨0, 17⟩, 1000⟩, none) ∧
    WriteTail ⟨0, [], [], ⟨0, 0⟩, 10⟩ [7] =
      (⟨1, [], [(0, encodeFrame [7])], ⟨1, 0⟩, 10⟩, none) := by
  constructor
  · have h := (writeTail_appends_and_rotates ⟨0, [], [], ⟨0, 0⟩, 1000⟩
      [7] (by norm_num)).2.2.1 (by norm_num)
    simpa using h
  · have h := (writeTail_appends_and_rotates ⟨0, [], [], ⟨0, 0⟩, 10⟩
      [7] (by norm_num)).2.2.2 (by norm_num)
    simpa using h

/-! ## Pump log GC — src/pump/server.go, `binlogger.GC` -/

structure SegFile where
  suffix : Nat
  modTime : Int
deriving Repr, DecidableEq

/-- `binlogger.GC` (server.go:877-911): iterate the name-sorted segment
files except the last one (the current tail is always skipped); a file is
removed when `curSuffix < pos.Suffix || time.Now().Sub(fi.ModTime()) > days`
— a disjunction.  `now` models `time.Now()` and mod times are instants on
the same clock; the function returns the files remaining in the
directory. -/
def GC (now days : Int) (pos : BinlogPos) (files : List SegFile) : List SegFile :=
  if files.length = 0 then files
  else
    files.dropLast.filter
        (fun f => !decide (f.suffix < pos.suffix ∨ now - f.modTime > days)) ++
      files.drop (files.length - 1)

/-- C7 counterexample: with `now = 100`, a retention of `days = 50` and
`keepFromPos.suffix = 5`, the non-tail segment `binlog-0` with a fresh mod
time (`now - modTime = 0`, not older than the horizon) is still deleted,
because its suffix `0 < 5` alone satisfies the code's disjunction — refuting
the claim that deletion requires BOTH conditions. -/
theorem gc_deletes_fresh_file_counterexample :
    GC 100 50 { suffix := 5, offset := 0 }
        [{ suffix := 0, modTime := 100 }, { suffix := 1, modTime := 100 }] =
      [{ suffix := 1, modTime := 100 }] ∧
    ¬((100 : Int) - 100 > 50) := by
  constructor
  · rfl
  · decide

theorem drop_length_sub_one (l : List SegFile) (h : l ≠ []) :
    l.drop (l.length - 1) = [l.getLast h] := by
  induction l with
  | nil => exact absurd rfl h
  | cons a as ih =>
    cases as with
    | nil => simp
    | cons b bs =>
      have h2 : (b :: bs : List SegFile) ≠ [] := by simp
      have hrec := ih h2
      simp only [List.length_cons] at hrec ⊢
      rw [List.getLast_cons_cons]
      have hs : bs.length + 1 + 1 - 1 = (bs.length + 1 - 1) + 1 := by omega
      rw [hs, List.drop_succ_cons]
      exact hrec

/-- C7 amended: `GC` deletes a non-tail segment exactly when its suffix is
strictly less than `keepFromPos.suffix` OR its modification time is older
than the retention horizon (the code tests a disjunction, not a
conjunction); the current tail segment is never deleted. -/
theorem gc_deletes_iff_or (now days : Int) (pos : BinlogPos)
    (files : List SegFile) (hne : files ≠ [])
    (hdist : files.Pairwise (fun a b => a.suffix ≠ b.suffix)) :
    (∀ f ∈ files.dropLast,
      f ∈ GC now days pos files ↔
        ¬(f.suffix < pos.suffix ∨ now - f.modTime > days)) ∧
    files.getLast hne ∈ GC now days pos files := by
  have hfl : files.dropLast ++ [files.getLast hne] = files :=
    List.dropLast_append_getLast hne
  have hdrop : files.drop (files.length - 1) = [files.getLast hne] :=
    drop_length_sub_one files hne
  have hGC : GC now days pos files =
      files.dropLast.filter
          (fun f => !decide (f.suffix < pos.suffix ∨ now - f.modTime > days)) ++
        [files.getLast hne] := by
    unfold GC
    rw [if_neg (by simp [hne]), hdrop]
  have hlast_not : ∀ f ∈ files.dropLast, f ≠ files.getLast hne := by
    intro f hf heq
    have hpw : ∀ x ∈ files.dropLast, x.suffix ≠ (files.getLast hne).suffix := by
      have h := (List.pairwise_append.mp (hfl ▸ hdist)).2.2
      intro x hx
      exact fun hs => h x hx _ (by simp) hs
    exact hpw f hf (by rw [heq])
  constructor
  · intro f hf
    rw [hGC]
    constructor
    · intro hmem
      rcases List.mem_append.mp hmem with hm | hm
      · have := List.of_mem_filter hm
        simpa using this
      · exact absurd (by simpa using hm) (hlast_not f hf)
    · intro hcond
      exact List.mem_append.mpr (.inl (List.mem_filter.mpr ⟨hf, by simpa using hcond⟩))
  · rw [hGC]
    exact List.mem_append.mpr (.inr (by simp))

/-- Witness for `gc_deletes_iff_or` on a three-segment directory. -/
theorem gc_deletes_iff_or_witness :
    (∀ f ∈ ([{ suffix := 0, modTime := 0 }, { suffix := 3, modTime := 90 },
        { suffix := 4, modTime := 100 }] : List SegFile).dropLast,
      f ∈ GC 100 50 { suffix := 4, offset := 0 }
          [{ suffix := 0, modTime := 0 }, { suffix := 3, modTime := 90 },
           { suffix := 4, modTime := 100 }] ↔
        ¬(f.suffix < 4 ∨ (100 : Int) - f.modTime > 50)) ∧
    ([{ suffix := 0, modTime := 0 }, { suffix := 3, modTime := 90 },
      { suffix := 4, modTime := 100 }] : List SegFile).getLast (by simp) ∈
      GC 100 50 { suffix := 4, offset := 0 }
        [{ suffix := 0, modTime := 0 }, { suffix := 3, modTime := 90 },
         { suffix := 4, modTime := 100 }] :=
  gc_deletes_iff_or 100 50 { suffix := 4, offset := 0 }
    [{ suffix := 0, modTime := 0 }, { suffix := 3, modTime := 90 },
     { suffix := 4, modTime := 100 }] (by simp) (by decide)

/-! ## Kafka slicer — src/unnamed/part_009, `KafkaSlicer.Generate`

An oversize binlog payload is split into slices published as separate
messages; the header triple `{messageID, No, total}` lets the reader
reassemble them, and the record checksum rides only on the last slice. -/

structure KafkaGlobalConfig where
  enableBinlogSlice : Bool
  slicesSize : Nat
deriving Repr, DecidableEq

structure BinlogEntity where
  posSuffix : Nat
  posOffset : Nat
  payload : List Nat
  checksum : List Nat
deriving Repr, DecidableEq

inductive HeaderKey where
  | messageID
  | no
  | total
  | checksum
deriving Repr, DecidableEq

structure RecordHeader where
  key : HeaderKey
  value : List Nat
deriving Repr, DecidableEq

structure ProducerMessage where
  topic : String
  partition : Int
  value : List Nat
  headers : List RecordHeader
deriving Repr, DecidableEq

structure KafkaSlicer where
  topic : String
  partition : Int
deriving Repr, DecidableEq

/-- ASCII decimal rendering of a natural, `%d`. -/
def natDecimalBytes (n : Nat) : List Nat :=
  (Nat.toDigits 10 n).map Char.toNat

/-- `BinlogSliceMessageID` (part_009:98-101): `fmt.Sprintf("%d-%d", Suffix,
Offset)`, as bytes (45 is the dash). -/
def binlogSliceMessageID (suffix offset : Nat) : List Nat :=
  natDecimalBytes suffix ++ [45] ++ natDecimalBytes offset

/-- The slice count `total = (len(payload) + SlicesSize - 1) / SlicesSize`
(part_009:47). -/
def kafkaTotal (slicesSize payloadLen : Nat) : Nat :=
  (payloadLen + slicesSize - 1) / slicesSize

/-- `KafkaSlicer.wrapProducerMessage` (part_009:66-96): the message carries
the slice payload plus the `messageID`, `No` (little-endian uint32 of the
slice index) and `total` headers, and additionally the `checksum` header
when the checksum bytes are non-empty. -/
def wrapProducerMessage (s : KafkaSlicer) (index : Nat)
    (messageID total payload checksum : List Nat) : ProducerMessage :=
  { topic := s.topic
    partition := s.partition
    value := payload
    headers :=
      [{ key := .messageID, value := messageID },
       { key := .no, value := le32enc index },
       { key := .total, value := total }] ++
        (if 0 < checksum.length then [{ key := .checksum, value := checksum }] else []) }

/-- `KafkaSlicer.Generate` (part_009:34-64).  When slicing is disabled or
the payload is below the slice-size limit, a single bare message without
headers is produced.  Otherwise slices `0 .. total-2` carry consecutive
`SlicesSize`-byte windows (`payload[left:right]`, `left = i*SlicesSize`)
with an empty checksum, and the final slice `total-1` carries the remainder
`payload[left:]` together with `entity.Checksum`. -/
def Generate (cfg : KafkaGlobalConfig) (s : KafkaSlicer) (entity : BinlogEntity) :
    List ProducerMessage :=
  if ¬cfg.enableBinlogSlice ∨ entity.payload.length < cfg.slicesSize then
    [{ topic := s.topic, partition := s.partition,
       value := entity.payload, headers := [] }]
  else
    (List.range (kafkaTotal cfg.slicesSize entity.payload.length - 1)).map (fun i =>
      wrapProducerMessage s i
        (binlogSliceMessageID entity.posSuffix entity.posOffset)
        (le32enc (kafkaTotal cfg.slicesSize entity.payload.length))
        ((entity.payload.drop (i * cfg.slicesSize)).take cfg.slicesSize) []) ++
    [wrapProducerMessage s (kafkaTotal cfg.slicesSize entity.payload.length - 1)
      (binlogSliceMessageID entity.posSuffix entity.posOffset)
      (le32enc (kafkaTotal cfg.slicesSize entity.payload.length))
      (entity.payload.drop
        ((kafkaTotal cfg.slicesSize entity.payload.length - 1) * cfg.slicesSize))
      entity.checksum]

/-- The values of the headers with the given key, in order. -/
def headerValues (m : ProducerMessage) (k : HeaderKey) : List (List Nat) :=
  (m.headers.filter (fun h => h.key == k)).map RecordHeader.value

theorem chunks_flatten (l : List Nat) (s : Nat) (k : Nat) :
    ((List.range k).map (fun i => (l.drop (i * s)).take s)).flatten = l.take (k * s) := by
  induction k with
  | zero => simp
  | succ n ih =>
    rw [List.range_succ, List.map_append, List.flatten_append, ih]
    simp only [List.map_cons, List.map_nil, List.flatten_cons, List.flatten_nil,
      List.append_nil]
    rw [Nat.succ_mul, List.take_add]

theorem kafkaTotal_pos (s n : Nat) (hs : 0 < s) (hn : s ≤ n) :
    0 < kafkaTotal s n := by
  unfold kafkaTotal
  exact Nat.div_pos (by omega) hs

theorem kafkaTotal_pred_mul_lt (s n : Nat) (hs : 0 < s) (hn : s ≤ n) :
    (kafkaTotal s n - 1) * s < n := by
  have h1 : kafkaTotal s n * s ≤ n + s - 1 := by
    unfold kafkaTotal
    exact Nat.div_mul_le_self _ _
  have h2 : 0 < kafkaTotal s n := kafkaTotal_pos s n hs hn
  have h3 : (kafkaTotal s n - 1) * s = kafkaTotal s n * s - s := by
    rw [Nat.sub_mul, one_mul]
  omega

theorem headerValues_wrap (s : KafkaSlicer) (i : Nat)
    (mid tot pay ck : List Nat) :
    headerValues (wrapProducerMessage s i mid tot pay ck) .messageID = [mid] ∧
      headerValues (wrapProducerMessage s i mid tot pay ck) .no = [le32enc i] ∧
      headerValues (wrapProducerMessage s i mid tot pay ck) .total = [tot] ∧
      headerValues (wrapProducerMessage s i mid tot pay ck) .checksum =
        (if 0 < ck.length then [ck] else []) := by
  unfold headerValues wrapProducerMessage
  by_cases hc : 0 < ck.length
  · simp [hc]
  · simp [hc]

/-- C8: for every payload large enough to trigger slicing (slicing enabled
and `len(payload) ≥ SlicesSize > 0`), with the record checksum non-empty,
`Generate` returns exactly `⌈len(payload) / SlicesSize⌉` messages; the
message at slice index `i` carries the `messageID`, `No = i` and `total`
headers; concatenating the message payloads in slice-index order
reconstructs the original payload; and the `checksum` header appears on the
final slice only. -/
theorem generate_slices_spec (cfg : KafkaGlobalConfig) (s : KafkaSlicer)
    (entity : BinlogEntity)
    (hen : cfg.enableBinlogSlice = true)
    (hs : 0 < cfg.slicesSize)
    (hlen : cfg.slicesSize ≤ entity.payload.length)
    (hck : 0 < entity.checksum.length) :
    (Generate cfg s entity).length = kafkaTotal cfg.slicesSize entity.payload.length ∧
      ((Generate cfg s entity).map ProducerMessage.value).flatten = entity.payload ∧
      (∀ i, i < kafkaTotal cfg.slicesSize entity.payload.length →
        ∃ m, (Generate cfg s entity)[i]? = some m ∧
          headerValues m .messageID =
            [binlogSliceMessageID entity.posSuffix entity.posOffset] ∧
          headerValues m .no = [le32enc i] ∧
          headerValues m .total =
            [le32enc (kafkaTotal cfg.slicesSize entity.payload.length)] ∧
          headerValues m .checksum =
            (if i = kafkaTotal cfg.slicesSize entity.payload.length - 1
             then [entity.checksum] else [])) := by
  have htot : 0 < kafkaTotal cfg.slicesSize entity.payload.length :=
    kafkaTotal_pos _ _ hs hlen
  have hGen : Generate cfg s entity =
      (List.range (kafkaTotal cfg.slicesSize entity.payload.length - 1)).map (fun i =>
        wrapProducerMessage s i
          (binlogSliceMessageID entity.posSuffix entity.posOffset)
          (le32enc (kafkaTotal cfg.slicesSize entity.payload.length))
          ((entity.payload.drop (i * cfg.slicesSize)).take cfg.slicesSize) []) ++
      [wrapProducerMessage s (kafkaTotal cfg.slicesSize entity.payload.length - 1)
        (binlogSliceMessageID entity.posSuffix entity.posOffset)
        (le32enc (kafkaTotal cfg.slicesSize entity.payload.length))
        (entity.payload.drop
          ((kafkaTotal cfg.slicesSize entity.payload.length - 1) * cfg.slicesSize))
        entity.checksum] := by
    unfold Generate
    rw [if_neg (by simp [hen]; omega)]
  refine ⟨?_, ?_, ?_⟩
  · rw [hGen]
    simp only [List.length_append, List.length_map, List.length_range,
      List.length_singleton]
    omega
  · rw [hGen]
    rw [List.map_append, List.flatten_append]
    have hA : (((List.range (kafkaTotal cfg.slicesSize entity.payload.length - 1)).map
        (fun i => wrapProducerMessage s i
          (binlogSliceMessageID entity.posSuffix entity.posOffset)
          (le32enc (kafkaTotal cfg.slicesSize entity.payload.length))
          ((entity.payload.drop (i * cfg.slicesSize)).take cfg.slicesSize) [])).map
            ProducerMessage.value).flatten =
        entity.payload.take
          ((kafkaTotal cfg.slicesSize entity.payload.length - 1) * cfg.slicesSize) := by
      rw [List.map_map]
      have : (ProducerMessage.value ∘ fun i =>
          wrapProducerMessage s i
            (binlogSliceMessageID entity.posSuffix entity.posOffset)
            (le32enc (kafkaTotal cfg.slicesSize entity.payload.length))
            ((entity.payload.drop (i * cfg.slicesSize)).take cfg.slicesSize) []) =
          (fun i => (entity.payload.drop (i * cfg.slicesSize)).take cfg.slicesSize) := by
        funext i
        rfl
      rw [this, chunks_flatten]
    rw [hA]
    simp [wrapProducerMessage, List.take_append_drop]
  · intro i hi
    by_cases hcase : i < kafkaTotal cfg.slicesSize entity.payload.length - 1
    · refine ⟨wrapProducerMessage s i
        (binlogSliceMessageID entity.posSuffix entity.posOffset)
        (le32enc (kafkaTotal cfg.slicesSize entity.payload.length))
        ((entity.payload.drop (i * cfg.slicesSize)).take cfg.slicesSize) [], ?_, ?_⟩
      · rw [hGen, List.getElem?_append, if_pos (by simpa using hcase),
          List.getElem?_map]
        simp [List.getElem?_range, hcase]
      · have hw := headerValues_wrap s i
          (binlogSliceMessageID entity.posSuffix entity.posOffset)
          (le32enc (kafkaTotal cfg.slicesSize entity.payload.length))
          ((entity.payload.drop (i * cfg.slicesSize)).take cfg.slicesSize) []
        refine ⟨hw.1, hw.2.1, hw.2.2.1, ?_⟩
        rw [hw.2.2.2]
        rw [if_neg (by simp), if_neg (by omega)]
    · have hieq : i = kafkaTotal cfg.slicesSize entity.payload.length - 1 := by omega
      refine ⟨wrapProducerMessage s
        (kafkaTotal cfg.slicesSize entity.payload.length - 1)
        (binlogSliceMessageID entity.posSuffix entity.posOffset)
        (le32enc (kafkaTotal cfg.slicesSize entity.payload.length))
        (entity.payload.drop
          ((kafkaTotal cfg.slicesSize entity.payload.length - 1) * cfg.slicesSize))
        entity.checksum, ?_, ?_⟩
      · rw [hGen, List.getElem?_append, if_neg (by simp; omega)]
        simp only [List.length_map, List.length_range]
        rw [hieq]
        simp
      · have hw := headerValues_wrap s
          (kafkaTotal cfg.slicesSize entity.payload.length - 1)
          (binlogSliceMessageID entity.posSuffix entity.posOffset)
          (le32enc (kafkaTotal cfg.slicesSize entity.payload.length))
          (entity.payload.drop
            ((kafkaTotal cfg.slicesSize entity.payload.length - 1) * cfg.slicesSize))
          entity.checksum
        rw [hieq]
        refine ⟨hw.1, hw.2.1, hw.2.2.1, ?_⟩
        rw [hw.2.2.2]
        rw [if_pos hck, if_pos rfl]

/-- Witness for `generate_slices_spec`: payload `[1,2,3]`, slice size 2,
checksum `[9]` — two slices `[1,2]` and `[3]`. -/
theorem generate_slices_spec_witness :
    (Generate ⟨true, 2⟩ ⟨"t", 0⟩ ⟨1, 2, [1, 2, 3], [9]⟩).length = 2 ∧
      ((Generate ⟨true, 2⟩ ⟨"t", 0⟩ ⟨1, 2, [1, 2, 3], [9]⟩).map
        ProducerMessage.value).flatten = [1, 2, 3] ∧
      (∀ i, i < 2 →
        ∃ m, (Generate ⟨true, 2⟩ ⟨"t", 0⟩ ⟨1, 2, [1, 2, 3], [9]⟩)[i]? = some m ∧
          headerValues m .messageID = [binlogSliceMessageID 1 2] ∧
          headerValues m .no = [le32enc i] ∧
          headerValues m .total = [le32enc 2] ∧
          headerValues m .checksum = (if i = 1 then [[9]] else [])) := by
  have h := generate_slices_spec ⟨true, 2⟩ ⟨"t", 0⟩ ⟨1, 2, [1, 2, 3], [9]⟩
    rfl (by norm_num) (by norm_num) (by norm_num)
  have htot : kafkaTotal 2 3 = 2 := by decide
  refine ⟨?_, ?_, ?_⟩
  · have := h.1
    simpa [htot] using this
  · exact h.2.1
  · intro i hi
    have := h.2.2 i (by simpa [htot] using hi)
    simpa [htot] using this

/-! ## File-backed checkpoint — src/drainer/checkpoint/pb.go, `PbCheckPoint`

The TOML file on disk is modelled as `Option Int`: absent, or holding the
stored `commitTS`.  Disk I/O (open, decode, atomic write) is modelled as
always succeeding; time is an `Int` parameter standing for the wall
clock. -/

structure PbCheckPoint where
  closed : Bool
  initialCommitTS : Int
  commitTS : Int
  saveTime : Int
deriving Repr, DecidableEq

structure CheckpointWorld where
  sp : PbCheckPoint
  file : Option Int
deriving Repr, DecidableEq

inductive CPError where
  | checkPointClosed
deriving Repr, DecidableEq

/-- `maxSaveTime = 3 * time.Second` (pb.go:17), in seconds. -/
def maxSaveTime : Int := 3

/-- `PbCheckPoint.Load` (pb.go:44-73).  When already closed it returns
`ErrCheckPointClosed` before the zero-default `defer` is even installed, so
nothing changes.  Otherwise a missing file returns nil, a present file's
TOML sets `CommitTS`, and the deferred block replaces a zero `CommitTS`
with `initialCommitTS`. -/
def Load (w : CheckpointWorld) : CheckpointWorld × Option CPError :=
  if w.sp.closed then (w, some .checkPointClosed)
  else
    match w.file with
    | none =>
      if w.sp.commitTS = 0 then
        ({ w with sp := { w.sp with commitTS := w.sp.initialCommitTS } }, none)
      else (w, none)
    | some ts =>
      ({ w with sp := { w.sp with
          commitTS := if ts = 0 then w.sp.initialCommitTS else ts } }, none)

/-- `PbCheckPoint.Save` (pb.go:76-102): rejected with `ErrCheckPointClosed`
when closed; otherwise sets `CommitTS := ts`, atomically replaces the file
with the TOML encoding, and stamps `saveTime`. -/
def Save (now : Int) (w : CheckpointWorld) (ts : Int) :
    CheckpointWorld × Option CPError :=
  if w.sp.closed then (w, some .checkPointClosed)
  else
    ({ sp := { w.sp with commitTS := ts, saveTime := now }, file := some ts }, none)

/-- `PbCheckPoint.Check` (pb.go:105-114): false when closed, otherwise
whether at least `maxSaveTime` elapsed since the last save. -/
def Check (now : Int) (w : CheckpointWorld) : Bool :=
  if w.sp.closed then false
  else decide (now - w.sp.saveTime ≥ maxSaveTime)

/-- `PbCheckPoint.Close` (pb.go:124-134): a second `Close` returns
`ErrCheckPointClosed`; the first one marks the checkpoint closed. -/
def Close (w : CheckpointWorld) : CheckpointWorld × Option CPError :=
  if w.sp.closed then (w, some .checkPointClosed)
  else ({ w with sp := { w.sp with closed := true } }, none)

/-- C10: after a successful `Close()` on the file-backed checkpoint, every
subsequent `Load`, `Save` or `Close` call returns `ErrCheckPointClosed` and
leaves both the in-memory `CommitTS` and the on-disk checkpoint file
unchanged, and `Check` always returns false. -/
theorem checkpoint_closed_rejects_all (w : CheckpointWorld)
    (hw : w.sp.closed = false) :
    (Close w).2 = none ∧
      Load (Close w).1 = ((Close w).1, some .checkPointClosed) ∧
      (∀ now ts, Save now (Close w).1 ts = ((Close w).1, some .checkPointClosed)) ∧
      Close (Close w).1 = ((Close w).1, some .checkPointClosed) ∧
      (∀ now, Check now (Close w).1 = false) ∧
      (Close w).1.sp.commitTS = w.sp.commitTS ∧ (Close w).1.file = w.file := by
  have hcw : Close w = ({ w with sp := { w.sp with closed := true } }, none) := by
    unfold Close
    rw [if_neg (by simp [hw])]
  rw [hcw]
  refine ⟨rfl, ?_, ?_, ?_, ?_, rfl, rfl⟩
  · unfold Load
    rw [if_pos (by simp)]
  · intro now ts
    unfold Save
    rw [if_pos (by simp)]
  · unfold Close
    rw [if_pos (by simp)]
  · intro now
    unfold Check
    rw [if_pos (by simp)]

/-- Witness for `checkpoint_closed_rejects_all` at a concrete open
checkpoint. -/
theorem checkpoint_closed_rejects_all_witness :
    (Close ⟨⟨false, 7, 42, 0⟩, some 42⟩).2 = none ∧
      Load (Close ⟨⟨false, 7, 42, 0⟩, some 42⟩).1 =
        ((Close ⟨⟨false, 7, 42, 0⟩, some 42⟩).1, some .checkPointClosed) ∧
      (∀ now ts, Save now (Close ⟨⟨false, 7, 42, 0⟩, some 42⟩).1 ts =
        ((Close ⟨⟨false, 7, 42, 0⟩, some 42⟩).1, some .checkPointClosed)) ∧
      Close (Close ⟨⟨false, 7, 42, 0⟩, some 42⟩).1 =
        ((Close ⟨⟨false, 7, 42, 0⟩, some 42⟩).1, some .checkPointClosed) ∧
      (∀ now, Check now (Close ⟨⟨false, 7, 42, 0⟩, some 42⟩).1 = false) ∧
      (Close ⟨⟨false, 7, 42, 0⟩, some 42⟩).1.sp.commitTS = 42 ∧
      (Close ⟨⟨false, 7, 42, 0⟩, some 42⟩).1.file = some 42 :=
  checkpoint_closed_rejects_all ⟨⟨false, 7, 42, 0⟩, some 42⟩ rfl

end TidbBinlog
